import Mathlib

/-!
Verification of the polaris config-file cache (`cache/config_file.go`).

The Go file implements a loading cache for config file releases:
an entry store keyed by `namespace + "+" + group + "+" + fileName`,
with version-guarded `Put`, a plain `Get`, a `GetOrLoadIfAbsent` that
falls back to storage and caches negative results, an unconditional
`Remove`, a jittered write-expiry, and a periodic sweeper that evicts
expired entries.

The embedding below is sequential: the `sync.Map` becomes an
association list with key-replacing store, `time.Now()` and
`rand.Intn(10*60)` become explicit `now`/`jitter` parameters, and the
storage collaborator's reply becomes an `Except`-valued argument.  The
concurrent load-coordination protocol of `GetOrLoadIfAbsent` (per-key
mutexes, double-checked locking) is embedded separately as a labelled
transition system over thread states, so that stampede protection can
be stated over all interleavings.
-/

namespace PolarisCache

/-- `Entry` from the source: content, md5, version, expire time, empty flag.
Time is seconds as `Nat`; `Version` (Go `uint64`) is `Nat` (only compared,
never overflowed). -/
structure Entry where
  content : String
  md5 : String
  version : Nat
  expireTime : Nat
  empty : Bool
deriving DecidableEq, Repr

/-- `model.ConfigFileRelease`, restricted to the fields the cache reads. -/
structure ConfigFileRelease where
  nsp : String
  grp : String
  fileName : String
  content : String
  md5 : String
  version : Nat
deriving DecidableEq, Repr

/-- `BaseExpireTimeAfterWrite = 60 * 60` (seconds). -/
def BaseExpireTimeAfterWrite : Nat := 60 * 60

/-- `FileIdSeparator = "+"`. -/
def FileIdSeparator : String := "+"

/-- `GenFileId(namespace, group, fileName)`: plain concatenation with the
separator, no escaping. -/
def GenFileId (nsp grp fileName : String) : String :=
  nsp ++ FileIdSeparator ++ grp ++ FileIdSeparator ++ fileName

/-- `getExpireTime()`: `now + (rand.Intn(10*60) + BaseExpireTimeAfterWrite)`
seconds.  The value of `rand.Intn(10*60)` (a number in `[0, 600)`) is the
explicit `jitter` argument. -/
def getExpireTime (now jitter : Nat) : Nat :=
  now + (jitter + BaseExpireTimeAfterWrite)

/-- `sync.Map.Load`, on the association-list embedding of the file map. -/
def mapLoad : List (String × Entry) → String → Option Entry
  | [], _ => none
  | p :: rest, k => if p.1 == k then some p.2 else mapLoad rest k

/-- `sync.Map.Store`: replace the entry under the key, or append. -/
def mapStore : List (String × Entry) → String → Entry → List (String × Entry)
  | [], k, v => [(k, v)]
  | p :: rest, k, v => if p.1 == k then (k, v) :: rest else p :: mapStore rest k v

/-- `sync.Map.Delete`. -/
def mapDelete (m : List (String × Entry)) (k : String) : List (String × Entry) :=
  m.filter (fun p => !(p.1 == k))

/-- The cache state: the file map plus the package-level counters
(`putCnt`, `loadCnt`, `getCnt`, `removeCnt`, `expireCnt`). -/
structure FileCache where
  files : List (String × Entry)
  putCnt : Nat
  loadCnt : Nat
  getCnt : Nat
  removeCnt : Nat
  expireCnt : Nat
deriving DecidableEq, Repr

/-- `NewFileCache`: empty map, counters at their zero values. -/
def NewFileCache : FileCache :=
  { files := [], putCnt := 0, loadCnt := 0, getCnt := 0, removeCnt := 0, expireCnt := 0 }

/-- `newEntry(content, md5, version)`: a positive entry, `Empty: false`,
with a fresh jittered expiry. -/
def newEntry (content md5 : String) (version : Nat) (now jitter : Nat) : Entry :=
  { content := content, md5 := md5, version := version,
    expireTime := getExpireTime now jitter, empty := false }

/-- `FileCache.Get`: pure lookup, found flag embedded as `Option`. -/
def FileCache.get (fc : FileCache) (nsp grp fileName : String) : Option Entry :=
  mapLoad fc.files (GenFileId nsp grp fileName)

/-- `FileCache.Put`: bump `putCnt`; store a fresh entry iff the stored one
is missing, or is an empty placeholder, or has a strictly smaller version;
otherwise leave the map untouched. -/
def FileCache.put (fc : FileCache) (file : ConfigFileRelease) (now jitter : Nat) : FileCache :=
  let fc1 := { fc with putCnt := fc.putCnt + 1 }
  let fileId := GenFileId file.nsp file.grp file.fileName
  match fc1.get file.nsp file.grp file.fileName with
  | none =>
      { fc1 with files := mapStore fc1.files fileId (newEntry file.content file.md5 file.version now jitter) }
  | some storedEntry =>
      if storedEntry.empty || storedEntry.version < file.version then
        { fc1 with files := mapStore fc1.files fileId (newEntry file.content file.md5 file.version now jitter) }
      else fc1

/-- `FileCache.GetOrLoadIfAbsent`, sequential semantics: bump `getCnt`;
on a hit return the entry; on a miss bump `loadCnt` and consult the
storage reply — an error is propagated with no store, a record becomes a
positive entry, absence becomes a cached negative entry (`Empty: true`,
zero-value md5 and version). -/
def FileCache.getOrLoadIfAbsent (fc : FileCache)
    (storageResult : Except String (Option ConfigFileRelease))
    (nsp grp fileName : String) (now jitter : Nat) : FileCache × Except String Entry :=
  let fc1 := { fc with getCnt := fc.getCnt + 1 }
  let fileId := GenFileId nsp grp fileName
  match mapLoad fc1.files fileId with
  | some entry => (fc1, .ok entry)
  | none =>
      let fc2 := { fc1 with loadCnt := fc1.loadCnt + 1 }
      match storageResult with
      | .error e => (fc2, .error e)
      | .ok (some file) =>
          let entry := newEntry file.content file.md5 file.version now jitter
          ({ fc2 with files := mapStore fc2.files fileId entry }, .ok entry)
      | .ok none =>
          let emptyEntry : Entry :=
            { content := "", md5 := "", version := 0,
              expireTime := getExpireTime now jitter, empty := true }
          ({ fc2 with files := mapStore fc2.files fileId emptyEntry }, .ok emptyEntry)

/-- `FileCache.Remove`: bump `removeCnt`, delete unconditionally. -/
def FileCache.remove (fc : FileCache) (nsp grp fileName : String) : FileCache :=
  { fc with removeCnt := fc.removeCnt + 1,
            files := mapDelete fc.files (GenFileId nsp grp fileName) }

/-- How many entries of the map a sweep at time `now` finds expired
(`time.Now().After(ExpireTime)` is strict). -/
def expiredCount (files : List (String × Entry)) (now : Nat) : Nat :=
  (files.filter (fun p => decide (p.2.expireTime < now))).length

/-- One tick of `startClearExpireEntryTask`'s loop: delete every expired
entry, add their number to `expireCnt`; the boolean is whether the tick
logged (it logs iff it evicted at least one entry). -/
def sweepTick (fc : FileCache) (now : Nat) : FileCache × Bool :=
  let cur := expiredCount fc.files now
  ({ fc with files := fc.files.filter (fun p => !(decide (p.2.expireTime < now))),
             expireCnt := fc.expireCnt + cur },
   decide (0 < cur))

/-- The negative entry `GetOrLoadIfAbsent` stores when storage reports
absence: empty content, `Empty: true`, and the Go zero values for the
fields the literal leaves out (`Md5 = ""`, `Version = 0`). -/
def negativeEntry (now jitter : Nat) : Entry :=
  { content := "", md5 := "", version := 0,
    expireTime := getExpireTime now jitter, empty := true }

/-! ### Lemmas about the association-list embedding of `sync.Map` -/

theorem mapLoad_mapStore_self (m : List (String × Entry)) (k : String) (v : Entry) :
    mapLoad (mapStore m k v) k = some v := by
  induction m with
  | nil => simp [mapStore, mapLoad]
  | cons p rest ih =>
      by_cases h : p.1 = k
      · simp [mapStore, mapLoad, h]
      · simp [mapStore, mapLoad, h, ih]

theorem mapLoad_mapStore_ne (m : List (String × Entry)) (k k' : String) (v : Entry)
    (hne : k' ≠ k) : mapLoad (mapStore m k v) k' = mapLoad m k' := by
  have hkk : ¬ (k = k') := fun hh => hne hh.symm
  induction m with
  | nil => simp [mapStore, mapLoad, hkk]
  | cons p rest ih =>
      by_cases h : p.1 = k
      · simp [mapStore, mapLoad, h, hkk]
      · simp [mapStore, mapLoad, h, ih]

theorem mem_mapStore (m : List (String × Entry)) (k : String) (v : Entry)
    (p : String × Entry) (hp : p ∈ mapStore m k v) : p = (k, v) ∨ p ∈ m := by
  induction m with
  | nil => simpa [mapStore] using hp
  | cons q rest ih =>
      by_cases h : q.1 = k
      · simp only [mapStore, h, if_pos, beq_iff_eq] at hp
        rcases List.mem_cons.mp hp with h1 | h1
        · exact Or.inl h1
        · exact Or.inr (List.mem_cons_of_mem _ h1)
      · simp only [mapStore, beq_iff_eq, h, if_false, ite_false] at hp
        rcases List.mem_cons.mp hp with h1 | h1
        · exact Or.inr (h1 ▸ List.mem_cons_self _ _)
        · rcases ih h1 with h2 | h2
          · exact Or.inl h2
          · exact Or.inr (List.mem_cons_of_mem _ h2)

theorem mapLoad_eq_none (m : List (String × Entry)) (k : String)
    (h : ∀ p ∈ m, p.1 ≠ k) : mapLoad m k = none := by
  induction m with
  | nil => rfl
  | cons p rest ih =>
      have hp : p.1 ≠ k := h p (List.mem_cons_self _ _)
      simp only [mapLoad, beq_iff_eq, hp, if_false, ite_false]
      exact ih (fun q hq => h q (List.mem_cons_of_mem _ hq))

theorem mapLoad_mapDelete_self (m : List (String × Entry)) (k : String) :
    mapLoad (mapDelete m k) k = none := by
  apply mapLoad_eq_none
  intro p hp
  have := List.of_mem_filter hp
  simpa using this

theorem mapLoad_mapDelete_ne (m : List (String × Entry)) (k k' : String)
    (hne : k' ≠ k) : mapLoad (mapDelete m k) k' = mapLoad m k' := by
  have hkk : ¬ (k = k') := fun hh => hne hh.symm
  induction m with
  | nil => rfl
  | cons p rest ih =>
      simp only [mapDelete, List.filter_cons] at *
      by_cases h : p.1 = k
      · simp [mapLoad, h, hkk, ih]
      · simp [mapLoad, h, ih]

theorem keys_ne_of_mapLoad_none (m : List (String × Entry)) (k : String)
    (h : mapLoad m k = none) : ∀ p ∈ m, p.1 ≠ k := by
  induction m with
  | nil => intro p hp; cases hp
  | cons q rest ih =>
      by_cases hq : q.1 = k
      · simp [mapLoad, hq] at h
      · simp only [mapLoad, beq_iff_eq, hq, if_false, ite_false] at h
        intro p hp
        rcases List.mem_cons.mp hp with rfl | hp'
        · exact hq
        · exact ih h p hp'

theorem mapDelete_of_none (m : List (String × Entry)) (k : String)
    (h : mapLoad m k = none) : mapDelete m k = m := by
  have hall := keys_ne_of_mapLoad_none m k h
  unfold mapDelete
  apply List.filter_eq_self.mpr
  intro p hp
  simpa using hall p hp

/-- With distinct keys, a lookup after entry-wise filtering keeps exactly
the looked-up entry when the predicate holds of it. -/
theorem mapLoad_filter (f : Entry → Bool) (m : List (String × Entry)) (k : String)
    (hnd : (m.map Prod.fst).Nodup) :
    mapLoad (m.filter (fun p => f p.2)) k =
      match mapLoad m k with
      | some e => if f e then some e else none
      | none => none := by
  induction m with
  | nil => rfl
  | cons p rest ih =>
      have hnd' : (rest.map Prod.fst).Nodup := (List.nodup_cons.mp hnd).2
      have hnotin : p.1 ∉ rest.map Prod.fst := (List.nodup_cons.mp hnd).1
      by_cases h : p.1 = k
      · subst h
        have hrest : mapLoad rest p.1 = none := by
          apply mapLoad_eq_none
          intro q hq hqk
          exact hnotin (hqk ▸ List.mem_map_of_mem Prod.fst hq)
        by_cases hf : f p.2
        · simp [List.filter, mapLoad, hf]
        · simp only [List.filter, hf, Bool.false_eq_true, if_false, ite_false]
          rw [ih hnd']
          simp [mapLoad, hrest, hf]
      · by_cases hf : f p.2
        · simp only [List.filter, hf, if_true, ite_true]
          simp only [mapLoad, beq_iff_eq, h, if_false, ite_false]
          exact ih hnd'
        · simp only [List.filter, hf, Bool.false_eq_true, if_false, ite_false]
          rw [ih hnd']
          simp [mapLoad, h]

/-! ### Claim theorems -/

/-- C1: `Put` replaces the stored entry iff no entry exists for the key, or
the stored entry is an `Empty` placeholder, or the new record's version is
strictly greater; an equal-or-lower-version `Put` against a non-empty stored
entry leaves the map (hence the entry and its expiry) untouched, and an
accepted `Put` stores a fresh entry with a newly computed expiry.  In
particular `Put(v=1,"a")` then `Put(v=1,"b")` leaves `"a"`, and a subsequent
`Put(v=2,"b")` changes the content to `"b"`. -/
theorem put_overwrite_rule (fc : FileCache) (file : ConfigFileRelease) (now jitter : Nat) :
    (∀ e, fc.get file.nsp file.grp file.fileName = some e →
        e.empty = false → file.version ≤ e.version →
        (fc.put file now jitter).files = fc.files)
    ∧ (fc.get file.nsp file.grp file.fileName = none →
        (fc.put file now jitter).get file.nsp file.grp file.fileName =
          some (newEntry file.content file.md5 file.version now jitter))
    ∧ (∀ e, fc.get file.nsp file.grp file.fileName = some e →
        (e.empty = true ∨ e.version < file.version) →
        (fc.put file now jitter).get file.nsp file.grp file.fileName =
          some (newEntry file.content file.md5 file.version now jitter))
    ∧ (((NewFileCache.put ⟨"n", "g", "f", "a", "", 1⟩ 0 0).put
          ⟨"n", "g", "f", "b", "", 1⟩ 0 0).get "n" "g" "f" |>.map Entry.content) = some "a"
    ∧ ((((NewFileCache.put ⟨"n", "g", "f", "a", "", 1⟩ 0 0).put
          ⟨"n", "g", "f", "b", "", 1⟩ 0 0).put
          ⟨"n", "g", "f", "b", "", 2⟩ 0 0).get "n" "g" "f" |>.map Entry.content) = some "b" := by
  refine ⟨?_, ?_, ?_, by decide, by decide⟩
  · intro e he hemp hver
    simp only [FileCache.get] at he
    simp [FileCache.put, FileCache.get, he, hemp, Nat.not_lt.mpr hver]
  · intro h
    simp only [FileCache.get] at h
    simp [FileCache.put, FileCache.get, h, mapLoad_mapStore_self]
  · intro e he hcond
    simp only [FileCache.get] at he
    rcases hcond with hemp | hver
    · simp [FileCache.put, FileCache.get, he, hemp, mapLoad_mapStore_self]
    · simp [FileCache.put, FileCache.get, he, hver, mapLoad_mapStore_self]

/-- C1 witness: the general rule applied at a concrete rejected write
(stored version 2, incoming version 1, stored entry positive). -/
theorem put_overwrite_rule_witness :
    ((NewFileCache.put ⟨"n", "g", "f", "a", "", 2⟩ 0 0).put
        ⟨"n", "g", "f", "b", "", 1⟩ 0 0).files =
      (NewFileCache.put ⟨"n", "g", "f", "a", "", 2⟩ 0 0).files :=
  (put_overwrite_rule (NewFileCache.put ⟨"n", "g", "f", "a", "", 2⟩ 0 0)
      ⟨"n", "g", "f", "b", "", 1⟩ 0 0).1
    (newEntry "a" "" 2 0 0) (by decide) (by decide) (by decide)

/-- C5: every freshly written entry's expiry is the write time plus the
1-hour base plus the jitter (the value of `rand.Intn(10*60)`, a number in
`[0, 600)` seconds), so the time-to-live always lies in `[60, 70)`
minutes; this holds for entries built by `newEntry` (accepted `Put`s and
positive loads) and for the negative entries of the absent path. -/
theorem expire_time_window (now jitter : Nat) (h : jitter < 600) :
    getExpireTime now jitter = now + BaseExpireTimeAfterWrite + jitter
    ∧ BaseExpireTimeAfterWrite = 60 * 60
    ∧ now + 60 * 60 ≤ getExpireTime now jitter
    ∧ getExpireTime now jitter < now + 70 * 60
    ∧ (∀ c m v, (newEntry c m v now jitter).expireTime = getExpireTime now jitter)
    ∧ (∀ (fc : FileCache) (nsp grp fileName : String),
        mapLoad fc.files (GenFileId nsp grp fileName) = none →
        (fc.getOrLoadIfAbsent (.ok none) nsp grp fileName now jitter).2 =
          .ok (negativeEntry now jitter)) := by
  refine ⟨?_, rfl, ?_, ?_, fun c m v => rfl, ?_⟩
  · unfold getExpireTime; omega
  · unfold getExpireTime BaseExpireTimeAfterWrite; omega
  · unfold getExpireTime BaseExpireTimeAfterWrite; omega
  · intro fc nsp grp fileName hmiss
    simp [FileCache.getOrLoadIfAbsent, hmiss, negativeEntry]

/-- C5 witness: the window at `now = 1000`, `jitter = 599`. -/
theorem expire_time_window_witness :
    getExpireTime 1000 599 = 1000 + BaseExpireTimeAfterWrite + 599
    ∧ BaseExpireTimeAfterWrite = 60 * 60
    ∧ 1000 + 60 * 60 ≤ getExpireTime 1000 599
    ∧ getExpireTime 1000 599 < 1000 + 70 * 60
    ∧ (∀ c m v, (newEntry c m v 1000 599).expireTime = getExpireTime 1000 599)
    ∧ (∀ (fc : FileCache) (nsp grp fileName : String),
        mapLoad fc.files (GenFileId nsp grp fileName) = none →
        (fc.getOrLoadIfAbsent (.ok none) nsp grp fileName 1000 599).2 =
          .ok (negativeEntry 1000 599)) :=
  expire_time_window 1000 599 (by decide)

/-- C7: `Remove` deletes the entry for its key (afterwards `Get` returns
not-found from any prior state), is a no-op on the map when the key is
absent, never fails (it is a total function), and leaves every other key
untouched. -/
theorem remove_spec (fc : FileCache) (nsp grp fileName : String) :
    (fc.remove nsp grp fileName).get nsp grp fileName = none
    ∧ (fc.get nsp grp fileName = none → (fc.remove nsp grp fileName).files = fc.files)
    ∧ (∀ k, k ≠ GenFileId nsp grp fileName →
        mapLoad (fc.remove nsp grp fileName).files k = mapLoad fc.files k) := by
  refine ⟨?_, ?_, ?_⟩
  · simp [FileCache.remove, FileCache.get, mapLoad_mapDelete_self]
  · intro h
    simp only [FileCache.get] at h
    simp [FileCache.remove, mapDelete_of_none _ _ h]
  · intro k hk
    simp [FileCache.remove, mapLoad_mapDelete_ne _ _ _ hk]

/-- C7 witness: removing an absent key from the empty cache. -/
theorem remove_spec_witness :
    (NewFileCache.remove "n" "g" "f").get "n" "g" "f" = none
    ∧ (NewFileCache.remove "n" "g" "f").files = NewFileCache.files :=
  ⟨(remove_spec NewFileCache "n" "g" "f").1,
   (remove_spec NewFileCache "n" "g" "f").2.1 (by decide)⟩

/-- C8: the cache key concatenates namespace, group and file name with the
fixed separator `"+"` and no escaping, so two distinct triples whose parts
contain the separator map to the same key: `GenFileId` is not injective. -/
theorem genFileId_collision :
    (∀ nsp grp fileName, GenFileId nsp grp fileName =
        nsp ++ "+" ++ grp ++ "+" ++ fileName)
    ∧ GenFileId "a+b" "c" "d" = GenFileId "a" "b+c" "d"
    ∧ ("a+b", "c", "d") ≠ (("a", "b+c", "d") : String × String × String)
    ∧ ¬ Function.Injective
        (fun t : String × String × String => GenFileId t.1 t.2.1 t.2.2) := by
  refine ⟨fun nsp grp fileName => rfl, by decide, by decide, ?_⟩
  intro hinj
  have h := @hinj ("a+b", "c", "d") ("a", "b+c", "d") (by decide)
  exact absurd h (by decide)

/-- C9: neither `Get` nor `GetOrLoadIfAbsent` checks expiry — with an
entry present for the key, both return it as a hit (and mutate nothing)
even when its `ExpireTime` has already passed. -/
theorem stale_entries_served (fc : FileCache) (nsp grp fileName : String) (e : Entry)
    (s : Except String (Option ConfigFileRelease)) (now jitter : Nat)
    (he : mapLoad fc.files (GenFileId nsp grp fileName) = some e)
    (hstale : e.expireTime < now) :
    fc.get nsp grp fileName = some e
    ∧ (fc.getOrLoadIfAbsent s nsp grp fileName now jitter).2 = .ok e
    ∧ (fc.getOrLoadIfAbsent s nsp grp fileName now jitter).1.files = fc.files
    ∧ (fc.getOrLoadIfAbsent s nsp grp fileName now jitter).1.loadCnt = fc.loadCnt := by
  refine ⟨?_, ?_, ?_, ?_⟩ <;>
    simp [FileCache.get, FileCache.getOrLoadIfAbsent, he]

/-- C9 witness: an entry expired at time 0 is still served at time 5. -/
theorem stale_entries_served_witness :
    ({ files := [("n+g+f", ⟨"c", "m", 1, 0, false⟩)], putCnt := 0, loadCnt := 0,
       getCnt := 0, removeCnt := 0, expireCnt := 0 } : FileCache).get "n" "g" "f" =
        some ⟨"c", "m", 1, 0, false⟩
    ∧ (({ files := [("n+g+f", ⟨"c", "m", 1, 0, false⟩)], putCnt := 0, loadCnt := 0,
          getCnt := 0, removeCnt := 0, expireCnt := 0 } : FileCache).getOrLoadIfAbsent
            (.ok none) "n" "g" "f" 5 0).2 = .ok ⟨"c", "m", 1, 0, false⟩
    ∧ (({ files := [("n+g+f", ⟨"c", "m", 1, 0, false⟩)], putCnt := 0, loadCnt := 0,
          getCnt := 0, removeCnt := 0, expireCnt := 0 } : FileCache).getOrLoadIfAbsent
            (.ok none) "n" "g" "f" 5 0).1.files =
        ({ files := [("n+g+f", ⟨"c", "m", 1, 0, false⟩)], putCnt := 0, loadCnt := 0,
           getCnt := 0, removeCnt := 0, expireCnt := 0 } : FileCache).files
    ∧ (({ files := [("n+g+f", ⟨"c", "m", 1, 0, false⟩)], putCnt := 0, loadCnt := 0,
          getCnt := 0, removeCnt := 0, expireCnt := 0 } : FileCache).getOrLoadIfAbsent
            (.ok none) "n" "g" "f" 5 0).1.loadCnt =
        ({ files := [("n+g+f", ⟨"c", "m", 1, 0, false⟩)], putCnt := 0, loadCnt := 0,
           getCnt := 0, removeCnt := 0, expireCnt := 0 } : FileCache).loadCnt :=
  stale_entries_served _ "n" "g" "f" ⟨"c", "m", 1, 0, false⟩ (.ok none) 5 0
    (by decide) (by decide)

/-- C2: a storage error during `GetOrLoadIfAbsent` is propagated to the
caller and the file map is left exactly as it was — no positive or
negative entry is written — so a subsequent call for the same key reaches
the storage load again (`loadCnt` increments again whatever the storage
reply is). -/
theorem load_error_no_mutation (fc : FileCache) (nsp grp fileName msg : String)
    (now jitter : Nat) (hmiss : fc.get nsp grp fileName = none) :
    (fc.getOrLoadIfAbsent (.error msg) nsp grp fileName now jitter).2 = .error msg
    ∧ (fc.getOrLoadIfAbsent (.error msg) nsp grp fileName now jitter).1.files = fc.files
    ∧ (fc.getOrLoadIfAbsent (.error msg) nsp grp fileName now jitter).1.get
        nsp grp fileName = none
    ∧ (∀ (s2 : Except String (Option ConfigFileRelease)) (now2 jitter2 : Nat),
        ((fc.getOrLoadIfAbsent (.error msg) nsp grp fileName now jitter).1.getOrLoadIfAbsent
            s2 nsp grp fileName now2 jitter2).1.loadCnt =
          (fc.getOrLoadIfAbsent (.error msg) nsp grp fileName now jitter).1.loadCnt + 1) := by
  simp only [FileCache.get] at hmiss
  refine ⟨?_, ?_, ?_, ?_⟩
  · simp [FileCache.getOrLoadIfAbsent, hmiss]
  · simp [FileCache.getOrLoadIfAbsent, hmiss]
  · simp [FileCache.getOrLoadIfAbsent, FileCache.get, hmiss]
  · intro s2 now2 jitter2
    rcases s2 with e2 | f2
    · simp [FileCache.getOrLoadIfAbsent, hmiss]
    · rcases f2 with _ | file2 <;> simp [FileCache.getOrLoadIfAbsent, hmiss]

/-- C2 witness: a storage error against the empty cache. -/
theorem load_error_no_mutation_witness :
    (NewFileCache.getOrLoadIfAbsent (.error "boom") "n" "g" "f" 0 0).2 = .error "boom"
    ∧ (NewFileCache.getOrLoadIfAbsent (.error "boom") "n" "g" "f" 0 0).1.files =
        NewFileCache.files
    ∧ (NewFileCache.getOrLoadIfAbsent (.error "boom") "n" "g" "f" 0 0).1.get
        "n" "g" "f" = none
    ∧ (∀ (s2 : Except String (Option ConfigFileRelease)) (now2 jitter2 : Nat),
        ((NewFileCache.getOrLoadIfAbsent (.error "boom") "n" "g" "f" 0 0).1.getOrLoadIfAbsent
            s2 "n" "g" "f" now2 jitter2).1.loadCnt =
          (NewFileCache.getOrLoadIfAbsent (.error "boom") "n" "g" "f" 0 0).1.loadCnt + 1) :=
  load_error_no_mutation NewFileCache "n" "g" "f" "boom" 0 0 (by decide)

/-- C3: when storage reports absence with no error, `GetOrLoadIfAbsent`
stores a negative entry (empty content, `Empty: true`, jittered expiry)
and returns it with no error; a second call for the same key while the
negative entry is cached returns it from the cache with no further
storage call (`loadCnt` unchanged, map unchanged), whatever storage
would now answer. -/
theorem negative_caching (fc : FileCache) (nsp grp fileName : String)
    (now jitter now2 jitter2 : Nat) (s2 : Except String (Option ConfigFileRelease))
    (hmiss : fc.get nsp grp fileName = none) :
    (fc.getOrLoadIfAbsent (.ok none) nsp grp fileName now jitter).2 =
        .ok (negativeEntry now jitter)
    ∧ (negativeEntry now jitter).content = "" ∧ (negativeEntry now jitter).empty = true
    ∧ (negativeEntry now jitter).expireTime = getExpireTime now jitter
    ∧ (fc.getOrLoadIfAbsent (.ok none) nsp grp fileName now jitter).1.get nsp grp fileName =
        some (negativeEntry now jitter)
    ∧ ((fc.getOrLoadIfAbsent (.ok none) nsp grp fileName now jitter).1.getOrLoadIfAbsent
          s2 nsp grp fileName now2 jitter2).2 = .ok (negativeEntry now jitter)
    ∧ ((fc.getOrLoadIfAbsent (.ok none) nsp grp fileName now jitter).1.getOrLoadIfAbsent
          s2 nsp grp fileName now2 jitter2).1.files =
        (fc.getOrLoadIfAbsent (.ok none) nsp grp fileName now jitter).1.files
    ∧ ((fc.getOrLoadIfAbsent (.ok none) nsp grp fileName now jitter).1.getOrLoadIfAbsent
          s2 nsp grp fileName now2 jitter2).1.loadCnt =
        (fc.getOrLoadIfAbsent (.ok none) nsp grp fileName now jitter).1.loadCnt := by
  simp only [FileCache.get] at hmiss
  have hfirst : fc.getOrLoadIfAbsent (.ok none) nsp grp fileName now jitter =
      (⟨mapStore fc.files (GenFileId nsp grp fileName) (negativeEntry now jitter),
        fc.putCnt, fc.loadCnt + 1, fc.getCnt + 1, fc.removeCnt, fc.expireCnt⟩,
       .ok (negativeEntry now jitter)) := by
    simp [FileCache.getOrLoadIfAbsent, hmiss, negativeEntry]
  refine ⟨by rw [hfirst], rfl, rfl, rfl, ?_, ?_, ?_, ?_⟩ <;>
    rw [hfirst] <;>
    simp [FileCache.getOrLoadIfAbsent, FileCache.get, mapLoad_mapStore_self]

/-- C3 witness: the absent path against the empty cache, with a second
call whose storage reply would be an error. -/
theorem negative_caching_witness :
    (NewFileCache.getOrLoadIfAbsent (.ok none) "n" "g" "f" 3 4).2 =
        .ok (negativeEntry 3 4)
    ∧ (negativeEntry 3 4).content = "" ∧ (negativeEntry 3 4).empty = true
    ∧ (negativeEntry 3 4).expireTime = getExpireTime 3 4
    ∧ (NewFileCache.getOrLoadIfAbsent (.ok none) "n" "g" "f" 3 4).1.get "n" "g" "f" =
        some (negativeEntry 3 4)
    ∧ ((NewFileCache.getOrLoadIfAbsent (.ok none) "n" "g" "f" 3 4).1.getOrLoadIfAbsent
          (.error "down") "n" "g" "f" 9 9).2 = .ok (negativeEntry 3 4)
    ∧ ((NewFileCache.getOrLoadIfAbsent (.ok none) "n" "g" "f" 3 4).1.getOrLoadIfAbsent
          (.error "down") "n" "g" "f" 9 9).1.files =
        (NewFileCache.getOrLoadIfAbsent (.ok none) "n" "g" "f" 3 4).1.files
    ∧ ((NewFileCache.getOrLoadIfAbsent (.ok none) "n" "g" "f" 3 4).1.getOrLoadIfAbsent
          (.error "down") "n" "g" "f" 9 9).1.loadCnt =
        (NewFileCache.getOrLoadIfAbsent (.ok none) "n" "g" "f" 3 4).1.loadCnt :=
  negative_caching NewFileCache "n" "g" "f" 3 4 9 9 (.error "down") (by decide)

/-- C6: one sweeper tick deletes exactly the entries whose expiry has
strictly passed, leaves the others in place, adds the number of evicted
entries to the eviction counter, and logs iff that number is positive. -/
theorem sweep_tick_spec (fc : FileCache) (now : Nat)
    (hnd : (fc.files.map Prod.fst).Nodup) :
    ((sweepTick fc now).1.expireCnt = fc.expireCnt + expiredCount fc.files now)
    ∧ ((sweepTick fc now).2 = true ↔ 0 < expiredCount fc.files now)
    ∧ (∀ k e, mapLoad fc.files k = some e →
        mapLoad (sweepTick fc now).1.files k =
          (if e.expireTime < now then none else some e))
    ∧ (∀ k, mapLoad fc.files k = none → mapLoad (sweepTick fc now).1.files k = none) := by
  refine ⟨rfl, by simp [sweepTick], ?_, ?_⟩
  · intro k e he
    have h := mapLoad_filter (fun e => !(decide (e.expireTime < now))) fc.files k hnd
    simp only [sweepTick]
    rw [h, he]
    by_cases hexp : e.expireTime < now <;> simp [hexp]
  · intro k hk
    have h := mapLoad_filter (fun e => !(decide (e.expireTime < now))) fc.files k hnd
    simp only [sweepTick]
    rw [h, hk]

/-- C6 witness: a two-entry cache at `now = 5`; the entry expired at 0 is
swept, the one expiring at 100 stays, the counter moves by one. -/
theorem sweep_tick_spec_witness :
    ((sweepTick ⟨[("a", ⟨"x", "", 1, 0, false⟩), ("b", ⟨"y", "", 1, 100, false⟩)],
        0, 0, 0, 0, 7⟩ 5).1.expireCnt =
      7 + expiredCount [("a", ⟨"x", "", 1, 0, false⟩), ("b", ⟨"y", "", 1, 100, false⟩)] 5)
    ∧ ((sweepTick ⟨[("a", ⟨"x", "", 1, 0, false⟩), ("b", ⟨"y", "", 1, 100, false⟩)],
          0, 0, 0, 0, 7⟩ 5).2 = true ↔
        0 < expiredCount [("a", ⟨"x", "", 1, 0, false⟩), ("b", ⟨"y", "", 1, 100, false⟩)] 5)
    ∧ (∀ k e, mapLoad [("a", ⟨"x", "", 1, 0, false⟩), ("b", ⟨"y", "", 1, 100, false⟩)] k =
          some e →
        mapLoad (sweepTick ⟨[("a", ⟨"x", "", 1, 0, false⟩), ("b", ⟨"y", "", 1, 100, false⟩)],
            0, 0, 0, 0, 7⟩ 5).1.files k =
          (if e.expireTime < 5 then none else some e))
    ∧ (∀ k, mapLoad [("a", ⟨"x", "", 1, 0, false⟩), ("b", ⟨"y", "", 1, 100, false⟩)] k =
          none →
        mapLoad (sweepTick ⟨[("a", ⟨"x", "", 1, 0, false⟩), ("b", ⟨"y", "", 1, 100, false⟩)],
            0, 0, 0, 0, 7⟩ 5).1.files k = none) :=
  sweep_tick_spec ⟨[("a", ⟨"x", "", 1, 0, false⟩), ("b", ⟨"y", "", 1, 100, false⟩)],
    0, 0, 0, 0, 7⟩ 5 (by decide)

/-! ### Operation sequences, for whole-cache invariants -/

/-- One cache operation, with its external inputs (the storage reply, the
clock, the drawn jitter) made explicit. -/
inductive CacheOp where
  | putOp (file : ConfigFileRelease) (now jitter : Nat)
  | loadOp (storageResult : Except String (Option ConfigFileRelease))
      (nsp grp fileName : String) (now jitter : Nat)
  | removeOp (nsp grp fileName : String)
  | sweepOp (now : Nat)

/-- Apply one operation to the cache state. -/
def applyOp (fc : FileCache) : CacheOp → FileCache
  | .putOp file now jitter => fc.put file now jitter
  | .loadOp s nsp grp fileName now jitter =>
      (fc.getOrLoadIfAbsent s nsp grp fileName now jitter).1
  | .removeOp nsp grp fileName => fc.remove nsp grp fileName
  | .sweepOp now => (sweepTick fc now).1

/-- Run a sequence of operations. -/
def runOps : FileCache → List CacheOp → FileCache
  | fc, [] => fc
  | fc, op :: rest => runOps (applyOp fc op) rest

/-- Every `Empty` entry in the map is a pristine negative placeholder:
empty content, zero version, empty checksum. -/
def negOnlyPlaceholders (fc : FileCache) : Prop :=
  ∀ p ∈ fc.files, p.2.empty = true →
    p.2.content = "" ∧ p.2.version = 0 ∧ p.2.md5 = ""

/-- Any pair in the map after one operation was already there, or is a
positive (`Empty: false`) entry, or is a negative placeholder. -/
theorem mem_applyOp (fc : FileCache) (op : CacheOp) (p : String × Entry)
    (hp : p ∈ (applyOp fc op).files) :
    p ∈ fc.files ∨ p.2.empty = false ∨ ∃ now jitter, p.2 = negativeEntry now jitter := by
  cases op with
  | putOp file now jitter =>
      simp only [applyOp, FileCache.put] at hp
      split at hp
      · rcases mem_mapStore _ _ _ _ hp with h | h
        · exact Or.inr (Or.inl (by rw [h]; rfl))
        · exact Or.inl h
      · split at hp
        · rcases mem_mapStore _ _ _ _ hp with h | h
          · exact Or.inr (Or.inl (by rw [h]; rfl))
          · exact Or.inl h
        · exact Or.inl hp
  | loadOp s nsp grp fileName now jitter =>
      simp only [applyOp, FileCache.getOrLoadIfAbsent] at hp
      split at hp
      · exact Or.inl hp
      · split at hp
        · exact Or.inl hp
        · rcases mem_mapStore _ _ _ _ hp with h | h
          · exact Or.inr (Or.inl (by rw [h]; rfl))
          · exact Or.inl h
        · rcases mem_mapStore _ _ _ _ hp with h | h
          · exact Or.inr (Or.inr ⟨now, jitter, by rw [h]; rfl⟩)
          · exact Or.inl h
  | removeOp nsp grp fileName =>
      simp only [applyOp, FileCache.remove, mapDelete] at hp
      exact Or.inl (List.mem_of_mem_filter hp)
  | sweepOp now =>
      simp only [applyOp, sweepTick] at hp
      exact Or.inl (List.mem_of_mem_filter hp)

theorem applyOp_negOnly (fc : FileCache) (op : CacheOp)
    (h : negOnlyPlaceholders fc) : negOnlyPlaceholders (applyOp fc op) := by
  intro p hp hemp
  rcases mem_applyOp fc op p hp with hold | hpos | ⟨now, jitter, hneg⟩
  · exact h p hold hemp
  · rw [hpos] at hemp; cases hemp
  · rw [hneg]; exact ⟨rfl, rfl, rfl⟩

theorem runOps_negOnly (fc : FileCache) (ops : List CacheOp)
    (h : negOnlyPlaceholders fc) : negOnlyPlaceholders (runOps fc ops) := by
  induction ops generalizing fc with
  | nil => exact h
  | cons op rest ih => exact ih _ (applyOp_negOnly fc op h)

/-- C10: entries written by `Put` or a positive load are never `Empty`
(even with empty content); in any state reachable from a fresh cache the
only `Empty` entries are pristine negative placeholders (empty content,
zero version, empty checksum); and `Put`'s overwrite guard never mistakes
a positive entry for a placeholder — content plays no role, only the
`Empty` flag and the version comparison do. -/
theorem empty_flag_invariant :
    (∀ c m v now jitter, (newEntry c m v now jitter).empty = false)
    ∧ (∀ ops, negOnlyPlaceholders (runOps NewFileCache ops))
    ∧ (∀ (fc : FileCache) (file : ConfigFileRelease) (now jitter : Nat) (e : Entry),
        fc.get file.nsp file.grp file.fileName = some e → e.empty = false →
        ¬ e.version < file.version → (fc.put file now jitter).files = fc.files) := by
  refine ⟨fun c m v now jitter => rfl, ?_, ?_⟩
  · intro ops
    exact runOps_negOnly NewFileCache ops (fun p hp => by cases hp)
  · intro fc file now jitter e he hemp hver
    simp only [FileCache.get] at he
    simp [FileCache.put, FileCache.get, he, hemp, hver]

/-! ### The concurrent load-coordination protocol

`GetOrLoadIfAbsent`'s miss path is concurrent in the source: each caller
does a lock-free lookup, then acquires a per-key mutex from the lock
registry, re-checks under the lock, and only then calls storage and
stores the result.  The interleaving semantics is a transition system:
each thread runs the protocol for its key `κ i`, storage answers
deterministically per key (`stor`), and the scheduler picks any enabled
thread at each step. -/

/-- Where one caller is in the protocol of `GetOrLoadIfAbsent`. -/
inductive TState where
  | start : TState
  | waiting : TState
  | checking : TState
  | loading : TState
  | done : Entry → TState
deriving DecidableEq, Repr

/-- The shared state seen by `n` concurrent callers: the file map, the
per-key lock registry (who holds each key's mutex), the per-key count of
storage invocations, and each thread's position. -/
structure CState (n : Nat) where
  files : String → Option Entry
  lockHeld : String → Option (Fin n)
  loads : String → Nat
  threads : Fin n → TState

/-- The initial state: nothing cached, no lock held, no storage call made. -/
def initState (n : Nat) : CState n :=
  { files := fun _ => none, lockHeld := fun _ => none,
    loads := fun _ => 0, threads := fun _ => .start }

/-- One interleaved step of `GetOrLoadIfAbsent`: the lock-free lookup
(hit or miss), mutex acquisition (enabled only when that key's mutex is
free), the double check under the lock (hit releases and returns; miss
counts a storage call), and the storage call completing (store, release,
return). -/
inductive Step {n : Nat} (stor : String → Entry) (κ : Fin n → String) :
    CState n → CState n → Prop where
  | fastHit (s : CState n) (i : Fin n) (e : Entry)
      (ht : s.threads i = .start) (hf : s.files (κ i) = some e) :
      Step stor κ s { s with threads := Function.update s.threads i (.done e) }
  | fastMiss (s : CState n) (i : Fin n)
      (ht : s.threads i = .start) (hf : s.files (κ i) = none) :
      Step stor κ s { s with threads := Function.update s.threads i .waiting }
  | acquire (s : CState n) (i : Fin n)
      (ht : s.threads i = .waiting) (hl : s.lockHeld (κ i) = none) :
      Step stor κ s { s with lockHeld := Function.update s.lockHeld (κ i) (some i),
                             threads := Function.update s.threads i .checking }
  | doubleHit (s : CState n) (i : Fin n) (e : Entry)
      (ht : s.threads i = .checking) (hf : s.files (κ i) = some e) :
      Step stor κ s { s with lockHeld := Function.update s.lockHeld (κ i) none,
                             threads := Function.update s.threads i (.done e) }
  | doubleMiss (s : CState n) (i : Fin n)
      (ht : s.threads i = .checking) (hf : s.files (κ i) = none) :
      Step stor κ s { s with loads := Function.update s.loads (κ i) (s.loads (κ i) + 1),
                             threads := Function.update s.threads i .loading }
  | finishLoad (s : CState n) (i : Fin n)
      (ht : s.threads i = .loading) :
      Step stor κ s { s with files := Function.update s.files (κ i) (some (stor (κ i))),
                             lockHeld := Function.update s.lockHeld (κ i) none,
                             threads := Function.update s.threads i (.done (stor (κ i))) }

/-- Reachability under any interleaving. -/
def Reach {n : Nat} (stor : String → Entry) (κ : Fin n → String) :
    CState n → CState n → Prop :=
  Relation.ReflTransGen (Step stor κ)

/-- Key `k` has been (or is being) loaded: some thread for `k` is inside
the storage call, or the map already holds an entry for `k`. -/
def LoadedKey {n : Nat} (κ : Fin n → String) (s : CState n) (k : String) : Prop :=
  (∃ i, κ i = k ∧ s.threads i = .loading) ∨ s.files k ≠ none

/-- The protocol invariant: lock ownership matches thread positions,
the map only ever holds the storage answer for the key, finished threads
saw exactly that answer, a loading thread saw the key absent, and the
storage-call counter of a key is 1 precisely once the key's load began
(0 before). -/
structure Inv {n : Nat} (stor : String → Entry) (κ : Fin n → String) (s : CState n) : Prop where
  lockOwner : ∀ k i, s.lockHeld k = some i →
      κ i = k ∧ (s.threads i = .checking ∨ s.threads i = .loading)
  holderLock : ∀ i, (s.threads i = .checking ∨ s.threads i = .loading) →
      s.lockHeld (κ i) = some i
  filesVal : ∀ k, s.files k = none ∨ s.files k = some (stor k)
  doneVal : ∀ i e, s.threads i = .done e →
      e = stor (κ i) ∧ s.files (κ i) = some (stor (κ i))
  loadingNone : ∀ i, s.threads i = .loading → s.files (κ i) = none
  loadsVal : ∀ k, (s.loads k = 0 ∧ ¬ LoadedKey κ s k) ∨ (s.loads k = 1 ∧ LoadedKey κ s k)

theorem loadedKey_congr {n : Nat} (κ : Fin n → String) (s s' : CState n) (k : String)
    (hfiles : s'.files k = s.files k)
    (hthreads : ∀ j, κ j = k → (s'.threads j = .loading ↔ s.threads j = .loading)) :
    LoadedKey κ s' k ↔ LoadedKey κ s k := by
  unfold LoadedKey
  rw [hfiles]
  constructor
  · rintro (⟨j, hj, hl⟩ | hf)
    · exact Or.inl ⟨j, hj, (hthreads j hj).mp hl⟩
    · exact Or.inr hf
  · rintro (⟨j, hj, hl⟩ | hf)
    · exact Or.inl ⟨j, hj, (hthreads j hj).mpr hl⟩
    · exact Or.inr hf

theorem init_inv {n : Nat} (stor : String → Entry) (κ : Fin n → String) :
    Inv stor κ (initState n) := by
  refine ⟨?_, ?_, ?_, ?_, ?_, ?_⟩
  · intro k i h; exact absurd h (by simp [initState])
  · rintro i (h | h) <;> simp [initState] at h
  · intro k; exact Or.inl rfl
  · intro i e h; simp [initState] at h
  · intro i h; simp [initState] at h
  · intro k
    refine Or.inl ⟨rfl, ?_⟩
    rintro (⟨j, -, hj⟩ | hf)
    · simp [initState] at hj
    · simp [initState] at hf

theorem loadsVal_transport {n : Nat} {κ : Fin n → String} (s s' : CState n)
    (hloads : ∀ k, s'.loads k = s.loads k)
    (hfiles : ∀ k, s'.files k = s.files k)
    (hthreads : ∀ j, s'.threads j = .loading ↔ s.threads j = .loading)
    (h : ∀ k, (s.loads k = 0 ∧ ¬ LoadedKey κ s k) ∨ (s.loads k = 1 ∧ LoadedKey κ s k)) :
    ∀ k, (s'.loads k = 0 ∧ ¬ LoadedKey κ s' k) ∨ (s'.loads k = 1 ∧ LoadedKey κ s' k) := by
  intro k
  have hck := loadedKey_congr κ s s' k (hfiles k) (fun j _ => hthreads j)
  rcases h k with ⟨h0, hnl⟩ | ⟨h1, hl⟩
  · exact Or.inl ⟨(hloads k).trans h0, fun hc => hnl (hck.mp hc)⟩
  · exact Or.inr ⟨(hloads k).trans h1, hck.mpr hl⟩

theorem step_inv {n : Nat} {stor : String → Entry} {κ : Fin n → String}
    {s s' : CState n} (h : Inv stor κ s) (hs : Step stor κ s s') : Inv stor κ s' := by
  cases hs with
  | fastHit i e ht hf =>
      refine ⟨?_, ?_, h.filesVal, ?_, ?_, ?_⟩
      · intro k j hlk
        obtain ⟨hkj, hcl⟩ := h.lockOwner k j hlk
        have hji : j ≠ i := by
          rintro rfl
          rcases hcl with hc | hc <;> rw [ht] at hc <;> cases hc
        exact ⟨hkj, by (try dsimp only at *); rw [Function.update_noteq hji]; exact hcl⟩
      · intro j hj
        by_cases hji : j = i
        · subst hji
          (try dsimp only at *); rw [Function.update_same] at hj
          rcases hj with hc | hc <;> cases hc
        · (try dsimp only at *); rw [Function.update_noteq hji] at hj
          exact h.holderLock j hj
      · intro j e' hj
        by_cases hji : j = i
        · subst hji
          (try dsimp only at *); rw [Function.update_same] at hj
          injection hj with he
          subst he
          rcases h.filesVal (κ j) with hn | hsome
          · rw [hn] at hf; cases hf
          · rw [hsome] at hf
            injection hf with he2
            exact ⟨he2.symm, hsome⟩
        · (try dsimp only at *); rw [Function.update_noteq hji] at hj
          exact h.doneVal j e' hj
      · intro j hj
        by_cases hji : j = i
        · subst hji; (try dsimp only at *); rw [Function.update_same] at hj; cases hj
        · (try dsimp only at *); rw [Function.update_noteq hji] at hj
          exact h.loadingNone j hj
      · refine loadsVal_transport s _ (fun _ => rfl) (fun _ => rfl) ?_ h.loadsVal
        intro j
        by_cases hji : j = i
        · subst hji; (try dsimp only at *); rw [Function.update_same, ht]; simp
        · (try dsimp only at *); rw [Function.update_noteq hji]
  | fastMiss i ht hf =>
      refine ⟨?_, ?_, h.filesVal, ?_, ?_, ?_⟩
      · intro k j hlk
        obtain ⟨hkj, hcl⟩ := h.lockOwner k j hlk
        have hji : j ≠ i := by
          rintro rfl
          rcases hcl with hc | hc <;> rw [ht] at hc <;> cases hc
        exact ⟨hkj, by (try dsimp only at *); rw [Function.update_noteq hji]; exact hcl⟩
      · intro j hj
        by_cases hji : j = i
        · subst hji
          (try dsimp only at *); rw [Function.update_same] at hj
          rcases hj with hc | hc <;> cases hc
        · (try dsimp only at *); rw [Function.update_noteq hji] at hj
          exact h.holderLock j hj
      · intro j e' hj
        by_cases hji : j = i
        · subst hji; (try dsimp only at *); rw [Function.update_same] at hj; cases hj
        · (try dsimp only at *); rw [Function.update_noteq hji] at hj
          exact h.doneVal j e' hj
      · intro j hj
        by_cases hji : j = i
        · subst hji; (try dsimp only at *); rw [Function.update_same] at hj; cases hj
        · (try dsimp only at *); rw [Function.update_noteq hji] at hj
          exact h.loadingNone j hj
      · refine loadsVal_transport s _ (fun _ => rfl) (fun _ => rfl) ?_ h.loadsVal
        intro j
        by_cases hji : j = i
        · subst hji; (try dsimp only at *); rw [Function.update_same, ht]; simp
        · (try dsimp only at *); rw [Function.update_noteq hji]
  | acquire i ht hl =>
      refine ⟨?_, ?_, h.filesVal, ?_, ?_, ?_⟩
      · intro k j hlk
        by_cases hk : k = κ i
        · subst hk
          (try dsimp only at *); rw [Function.update_same] at hlk
          injection hlk with hij
          subst hij
          exact ⟨rfl, Or.inl (Function.update_same ..)⟩
        · (try dsimp only at *); rw [Function.update_noteq hk] at hlk
          obtain ⟨hkj, hcl⟩ := h.lockOwner k j hlk
          have hji : j ≠ i := by rintro rfl; exact hk hkj.symm
          exact ⟨hkj, by (try dsimp only at *); rw [Function.update_noteq hji]; exact hcl⟩
      · intro j hj
        by_cases hji : j = i
        · subst hji
          exact Function.update_same ..
        · (try dsimp only at *); rw [Function.update_noteq hji] at hj
          have hold := h.holderLock j hj
          have hkne : κ j ≠ κ i := by
            intro hh
            rw [hh, hl] at hold
            cases hold
          (try dsimp only at *); rw [Function.update_noteq hkne]
          exact hold
      · intro j e' hj
        by_cases hji : j = i
        · subst hji; (try dsimp only at *); rw [Function.update_same] at hj; cases hj
        · (try dsimp only at *); rw [Function.update_noteq hji] at hj
          exact h.doneVal j e' hj
      · intro j hj
        by_cases hji : j = i
        · subst hji; (try dsimp only at *); rw [Function.update_same] at hj; cases hj
        · (try dsimp only at *); rw [Function.update_noteq hji] at hj
          exact h.loadingNone j hj
      · refine loadsVal_transport s _ (fun _ => rfl) (fun _ => rfl) ?_ h.loadsVal
        intro j
        by_cases hji : j = i
        · subst hji; (try dsimp only at *); rw [Function.update_same, ht]; simp
        · (try dsimp only at *); rw [Function.update_noteq hji]
  | doubleHit i e ht hf =>
      have hli := h.holderLock i (Or.inl ht)
      refine ⟨?_, ?_, h.filesVal, ?_, ?_, ?_⟩
      · intro k j hlk
        by_cases hk : k = κ i
        · subst hk
          (try dsimp only at *); rw [Function.update_same] at hlk
          cases hlk
        · (try dsimp only at *); rw [Function.update_noteq hk] at hlk
          obtain ⟨hkj, hcl⟩ := h.lockOwner k j hlk
          have hji : j ≠ i := by rintro rfl; exact hk hkj.symm
          exact ⟨hkj, by (try dsimp only at *); rw [Function.update_noteq hji]; exact hcl⟩
      · intro j hj
        by_cases hji : j = i
        · subst hji
          (try dsimp only at *); rw [Function.update_same] at hj
          rcases hj with hc | hc <;> cases hc
        · (try dsimp only at *); rw [Function.update_noteq hji] at hj
          have hold := h.holderLock j hj
          have hkne : κ j ≠ κ i := by
            intro hh
            rw [hh, hli] at hold
            injection hold with h2
            exact hji h2.symm
          (try dsimp only at *); rw [Function.update_noteq hkne]
          exact hold
      · intro j e' hj
        by_cases hji : j = i
        · subst hji
          (try dsimp only at *); rw [Function.update_same] at hj
          injection hj with he
          subst he
          rcases h.filesVal (κ j) with hn | hsome
          · rw [hn] at hf; cases hf
          · rw [hsome] at hf
            injection hf with he2
            exact ⟨he2.symm, hsome⟩
        · (try dsimp only at *); rw [Function.update_noteq hji] at hj
          exact h.doneVal j e' hj
      · intro j hj
        by_cases hji : j = i
        · subst hji; (try dsimp only at *); rw [Function.update_same] at hj; cases hj
        · (try dsimp only at *); rw [Function.update_noteq hji] at hj
          exact h.loadingNone j hj
      · refine loadsVal_transport s _ (fun _ => rfl) (fun _ => rfl) ?_ h.loadsVal
        intro j
        by_cases hji : j = i
        · subst hji; (try dsimp only at *); rw [Function.update_same, ht]; simp
        · (try dsimp only at *); rw [Function.update_noteq hji]
  | doubleMiss i ht hf =>
      have hli := h.holderLock i (Or.inl ht)
      refine ⟨?_, ?_, h.filesVal, ?_, ?_, ?_⟩
      · intro k j hlk
        obtain ⟨hkj, hcl⟩ := h.lockOwner k j hlk
        by_cases hji : j = i
        · subst hji
          exact ⟨hkj, Or.inr (Function.update_same ..)⟩
        · exact ⟨hkj, by (try dsimp only at *); rw [Function.update_noteq hji]; exact hcl⟩
      · intro j hj
        by_cases hji : j = i
        · subst hji
          exact hli
        · (try dsimp only at *); rw [Function.update_noteq hji] at hj
          exact h.holderLock j hj
      · intro j e' hj
        by_cases hji : j = i
        · subst hji; (try dsimp only at *); rw [Function.update_same] at hj; cases hj
        · (try dsimp only at *); rw [Function.update_noteq hji] at hj
          exact h.doneVal j e' hj
      · intro j hj
        by_cases hji : j = i
        · subst hji
          exact hf
        · (try dsimp only at *); rw [Function.update_noteq hji] at hj
          exact h.loadingNone j hj
      · intro k
        by_cases hk : k = κ i
        · subst hk
          have hnold : ¬ LoadedKey κ s (κ i) := by
            rintro (⟨j, hj, hlj⟩ | hfn)
            · have hlkj := h.holderLock j (Or.inr hlj)
              rw [hj, hli] at hlkj
              injection hlkj with h2
              subst h2
              rw [ht] at hlj
              cases hlj
            · exact hfn hf
          rcases h.loadsVal (κ i) with ⟨h0, _⟩ | ⟨_, hl2⟩
          · refine Or.inr ⟨?_, Or.inl ⟨i, rfl, Function.update_same ..⟩⟩
            show Function.update s.loads (κ i) (s.loads (κ i) + 1) (κ i) = 1
            (try dsimp only at *); rw [Function.update_same, h0]
          · exact absurd hl2 hnold
        · have hthreads : ∀ j, κ j = k →
              (Function.update s.threads i TState.loading j = TState.loading ↔
                s.threads j = TState.loading) := by
            intro j hj
            have hji : j ≠ i := by rintro rfl; exact hk hj.symm
            (try dsimp only at *); rw [Function.update_noteq hji]
          have hck := loadedKey_congr κ s
            { s with loads := Function.update s.loads (κ i) (s.loads (κ i) + 1),
                     threads := Function.update s.threads i TState.loading }
            k rfl hthreads
          rcases h.loadsVal k with ⟨h0, hnl⟩ | ⟨h1, hl2⟩
          · refine Or.inl ⟨?_, fun hc => hnl (hck.mp hc)⟩
            show Function.update s.loads (κ i) (s.loads (κ i) + 1) k = 0
            (try dsimp only at *); rw [Function.update_noteq hk]
            exact h0
          · refine Or.inr ⟨?_, hck.mpr hl2⟩
            show Function.update s.loads (κ i) (s.loads (κ i) + 1) k = 1
            (try dsimp only at *); rw [Function.update_noteq hk]
            exact h1
  | finishLoad i ht =>
      have hli := h.holderLock i (Or.inr ht)
      refine ⟨?_, ?_, ?_, ?_, ?_, ?_⟩
      · intro k j hlk
        by_cases hk : k = κ i
        · subst hk
          (try dsimp only at *); rw [Function.update_same] at hlk
          cases hlk
        · (try dsimp only at *); rw [Function.update_noteq hk] at hlk
          obtain ⟨hkj, hcl⟩ := h.lockOwner k j hlk
          have hji : j ≠ i := by rintro rfl; exact hk hkj.symm
          exact ⟨hkj, by (try dsimp only at *); rw [Function.update_noteq hji]; exact hcl⟩
      · intro j hj
        by_cases hji : j = i
        · subst hji
          (try dsimp only at *); rw [Function.update_same] at hj
          rcases hj with hc | hc <;> cases hc
        · (try dsimp only at *); rw [Function.update_noteq hji] at hj
          have hold := h.holderLock j hj
          have hkne : κ j ≠ κ i := by
            intro hh
            rw [hh, hli] at hold
            injection hold with h2
            exact hji h2.symm
          (try dsimp only at *); rw [Function.update_noteq hkne]
          exact hold
      · intro k
        by_cases hk : k = κ i
        · subst hk
          exact Or.inr (Function.update_same ..)
        · (try dsimp only at *); rw [Function.update_noteq hk]
          exact h.filesVal k
      · intro j e' hj
        by_cases hji : j = i
        · subst hji
          (try dsimp only at *); rw [Function.update_same] at hj
          injection hj with he
          exact ⟨he.symm, Function.update_same ..⟩
        · (try dsimp only at *); rw [Function.update_noteq hji] at hj
          obtain ⟨he, hfj⟩ := h.doneVal j e' hj
          refine ⟨he, ?_⟩
          by_cases hkj : κ j = κ i
          · rw [hkj, Function.update_same, ← hkj]
          · (try dsimp only at *); rw [Function.update_noteq hkj]
            exact hfj
      · intro j hj
        by_cases hji : j = i
        · subst hji; (try dsimp only at *); rw [Function.update_same] at hj; cases hj
        · (try dsimp only at *); rw [Function.update_noteq hji] at hj
          have hfj := h.loadingNone j hj
          have hkne : κ j ≠ κ i := by
            intro hh
            have hlkj := h.holderLock j (Or.inr hj)
            rw [hh, hli] at hlkj
            injection hlkj with h2
            exact hji h2.symm
          (try dsimp only at *); rw [Function.update_noteq hkne]
          exact hfj
      · intro k
        by_cases hk : k = κ i
        · subst hk
          rcases h.loadsVal (κ i) with ⟨_, hnl⟩ | ⟨h1, _⟩
          · exact absurd (Or.inl ⟨i, rfl, ht⟩) hnl
          · refine Or.inr ⟨h1, Or.inr ?_⟩
            show Function.update s.files (κ i) (some (stor (κ i))) (κ i) ≠ none
            (try dsimp only at *); rw [Function.update_same]
            simp
        · have hthreads : ∀ j, κ j = k →
              (Function.update s.threads i (TState.done (stor (κ i))) j = TState.loading ↔
                s.threads j = TState.loading) := by
            intro j hj
            have hji : j ≠ i := by rintro rfl; exact hk hj.symm
            (try dsimp only at *); rw [Function.update_noteq hji]
          have hck := loadedKey_congr κ s
            { s with files := Function.update s.files (κ i) (some (stor (κ i))),
                     lockHeld := Function.update s.lockHeld (κ i) none,
                     threads := Function.update s.threads i (TState.done (stor (κ i))) }
            k (Function.update_noteq hk _ _) hthreads
          rcases h.loadsVal k with ⟨h0, hnl⟩ | ⟨h1, hl2⟩
          · exact Or.inl ⟨h0, fun hc => hnl (hck.mp hc)⟩
          · exact Or.inr ⟨h1, hck.mpr hl2⟩

theorem reach_inv {n : Nat} (stor : String → Entry) (κ : Fin n → String)
    (s : CState n) (h : Reach stor κ (initState n) s) : Inv stor κ s := by
  induction h with
  | refl => exact init_inv stor κ
  | tail _ hbc ih => exact step_inv ih hbc

/-- C4: for a key with no cached entry, when all of the `n` callers run
`GetOrLoadIfAbsent` for that key, any complete interleaving makes exactly
one storage invocation for it and every caller ends with the same entry
(the storage answer).  Moreover, in any reachable state of any run, at
most one thread per key is inside the storage call at a time, and a
waiting thread whose own key's lock is free can always proceed — lock
granularity is per key, so callers for different keys never block each
other. -/
theorem stampede_protection {n : Nat} (stor : String → Entry) (κ : Fin n → String)
    (k : String) (s : CState n) (hn : 0 < n) (hκ : ∀ i, κ i = k)
    (hreach : Reach stor κ (initState n) s)
    (hdone : ∀ i, ∃ e, s.threads i = TState.done e) :
    (s.loads k = 1 ∧ ∀ i, s.threads i = TState.done (stor k))
    ∧ (∀ (m : Nat) (κ2 : Fin m → String) (s2 : CState m),
        Reach stor κ2 (initState m) s2 →
        ∀ i j, s2.threads i = TState.loading → s2.threads j = TState.loading →
          κ2 i = κ2 j → i = j)
    ∧ (∀ (m : Nat) (κ2 : Fin m → String) (s2 : CState m) (i : Fin m),
        s2.threads i = TState.waiting → s2.lockHeld (κ2 i) = none →
        ∃ t, Step stor κ2 s2 t ∧ t.threads i = TState.checking
          ∧ t.lockHeld (κ2 i) = some i) := by
  have inv := reach_inv stor κ s hreach
  refine ⟨⟨?_, ?_⟩, ?_, ?_⟩
  · obtain ⟨e0, he0⟩ := hdone ⟨0, hn⟩
    have hfk := (inv.doneVal ⟨0, hn⟩ e0 he0).2
    rw [hκ ⟨0, hn⟩] at hfk
    have hloaded : LoadedKey κ s k := Or.inr (by rw [hfk]; simp)
    rcases inv.loadsVal k with ⟨_, hnl⟩ | ⟨h1, _⟩
    · exact absurd hloaded hnl
    · exact h1
  · intro i
    obtain ⟨e, he⟩ := hdone i
    have hse := (inv.doneVal i e he).1
    rw [hκ i] at hse
    rw [he, hse]
  · intro m κ2 s2 h2 i j hi hj hkij
    have inv2 := reach_inv stor κ2 s2 h2
    have h1 := inv2.holderLock i (Or.inr hi)
    have h2' := inv2.holderLock j (Or.inr hj)
    rw [hkij, h2'] at h1
    injection h1 with hji
    exact hji.symm
  · intro m κ2 s2 i hti htl
    refine ⟨_, Step.acquire s2 i hti htl, ?_, ?_⟩
    · exact Function.update_same ..
    · exact Function.update_same ..

/-! Concrete two-thread run used to witness the stampede theorem:
thread 0 misses, takes the lock, loads and stores; thread 1 then hits. -/

def entryW : Entry := ⟨"payload", "digest", 7, 3600, false⟩

def storW : String → Entry := fun _ => entryW

def kapW : Fin 2 → String := fun _ => "k"

def sW0 : CState 2 := initState 2

def sW1 : CState 2 :=
  { sW0 with threads := Function.update sW0.threads 0 TState.waiting }

def sW2 : CState 2 :=
  { sW1 with lockHeld := Function.update sW1.lockHeld (kapW 0) (some 0),
             threads := Function.update sW1.threads 0 TState.checking }

def sW3 : CState 2 :=
  { sW2 with loads := Function.update sW2.loads (kapW 0) (sW2.loads (kapW 0) + 1),
             threads := Function.update sW2.threads 0 TState.loading }

def sW4 : CState 2 :=
  { sW3 with files := Function.update sW3.files (kapW 0) (some (storW (kapW 0))),
             lockHeld := Function.update sW3.lockHeld (kapW 0) none,
             threads := Function.update sW3.threads 0 (TState.done (storW (kapW 0))) }

def sW5 : CState 2 :=
  { sW4 with threads := Function.update sW4.threads 1 (TState.done entryW) }

theorem reachW5 : Reach storW kapW (initState 2) sW5 := by
  have h1 : Step storW kapW sW0 sW1 := Step.fastMiss sW0 0 rfl rfl
  have h2 : Step storW kapW sW1 sW2 := Step.acquire sW1 0 (by decide) rfl
  have h3 : Step storW kapW sW2 sW3 := Step.doubleMiss sW2 0 (by decide) rfl
  have h4 : Step storW kapW sW3 sW4 := Step.finishLoad sW3 0 (by decide)
  have h5 : Step storW kapW sW4 sW5 := Step.fastHit sW4 1 entryW (by decide) (by decide)
  exact .head h1 (.head h2 (.head h3 (.head h4 (.head h5 .refl))))

theorem doneW5 : ∀ i : Fin 2, ∃ e, sW5.threads i = TState.done e :=
  fun i => ⟨entryW, by fin_cases i <;> decide⟩

/-- C4 witness: the two-thread run above, applied to the theorem — one
storage call, both threads done with the storage answer. -/
theorem stampede_protection_witness :
    sW5.loads "k" = 1 ∧ ∀ i, sW5.threads i = TState.done (storW "k") :=
  (stampede_protection storW kapW "k" sW5 (by decide) (fun i => rfl)
      reachW5 doneW5).1

end PolarisCache
